import Mathlib

/-!
Verification of the aerospike-admin sheet-rendering and stats-aggregation core.

Shallow embedding of:
  * `lib/view/sheet/render/base_rsheet.py` — source merging, for-each expansion,
    field projection, grouping, ordering, per-group aggregation;
  * `lib/utils/common.py` — manual license-data-size computation, stop-writes
    cause predicate, byte-wise histogram rblock-size version gate;
  * `lib/utils/util.py` — multi-spelling dictionary lookup.

Python floats are modelled as `ℚ`, Python ints as `ℤ`, Python dicts as
association lists (or `Option`-valued structures), and raising statements as
`Except String`.  Python `round` (banker's rounding, half to even) is modelled
explicitly by `pyRound`.
-/

-- ==========================================================================
-- Common: the three-state cell (render_utils.NoEntry / ErrorEntry sentinels).

/-- A single projected cell: a real value, the `NoEntry` sentinel ("absent"),
or the `ErrorEntry` sentinel ("error").  The Python code represents the two
sentinels as distinguished singleton objects compared with `is`. -/
inductive Entry (α : Type) where
  | value (v : α)
  | noEntry
  | errorEntry
deriving DecidableEq, Repr

/-- Test for the `ErrorEntry` sentinel (`e is ErrorEntry` in the source). -/
def isErrorEntry {α : Type} : Entry α → Bool
  | Entry.errorEntry => true
  | _ => false

-- ==========================================================================
-- util.get_value_from_dict (lib/utils/util.py, lines 246-271).

/-- Embedding of `util.get_value_from_dict`.  The dictionary is an association
list whose entries are `Option`-valued (`some none` = key present with Python
`None`, `some (some v)` = key present with a real value, absence from the list
= key not in the dict).  `conv` models the `return_type` conversion, `none`
meaning the conversion raised; `dflt` is `default_value`.  The non-tuple key
normalisation (`keys = (keys,)`) is performed by the caller, so `keys` is
always a list here. -/
def get_value_from_dict {V B : Type} (d : List (String × Option V))
    (keys : List String) (dflt : B) (conv : V → Option B) : B :=
  match keys with
  | [] => dflt
  | k :: rest =>
    match d.lookup k with
    | none => get_value_from_dict d rest dflt conv
    | some none => dflt
    | some (some v) => (conv v).getD dflt

/-- C10: the multi-spelling lookup is decided entirely by the first candidate
key present in the dictionary: a non-None convertible value is returned
converted, anything else (None value or failed conversion) yields the default,
and candidate keys declared after the first present one are never consulted. -/
theorem c10_first_present_key_decides {V B : Type}
    (d : List (String × Option V)) (ks1 ks2 : List String) (k : String)
    (dflt : B) (conv : V → Option B)
    (h1 : ∀ k1 ∈ ks1, d.lookup k1 = none)
    (h2 : (d.lookup k).isSome) :
    get_value_from_dict d (ks1 ++ k :: ks2) dflt conv
      = (match d.lookup k with
         | some (some v) => (conv v).getD dflt
         | _ => dflt)
    ∧ get_value_from_dict d (ks1 ++ k :: ks2) dflt conv
      = get_value_from_dict d (ks1 ++ [k]) dflt conv := by
  induction ks1 with
  | nil =>
    simp only [List.nil_append]
    match hk : d.lookup k with
    | none => rw [hk] at h2; simp [Option.isSome] at h2
    | some none => simp [get_value_from_dict, hk]
    | some (some v) => simp [get_value_from_dict, hk]
  | cons k1 rest ih =>
    have hk1 : d.lookup k1 = none := h1 k1 (by simp)
    have ih2 := ih (fun x hx => h1 x (by simp [hx]))
    simpa [get_value_from_dict, hk1] using ih2

/-- Concrete dictionary used by the C10 witness. -/
def c10Dict : List (String × Option ℤ) :=
  [("b", some 7), ("c", some 9)]

/-- Witness for C10 at a concrete dictionary and key list. -/
theorem c10_first_present_key_decides_witness :
    get_value_from_dict c10Dict ["a", "b", "c"] (0 : ℤ) some
      = (match c10Dict.lookup "b" with
         | some (some v) => (some v).getD (0 : ℤ)
         | _ => (0 : ℤ))
    ∧ get_value_from_dict c10Dict ["a", "b", "c"] (0 : ℤ) some
      = get_value_from_dict c10Dict ["a", "b"] (0 : ℤ) some :=
  c10_first_present_key_decides c10Dict ["a"] ["c"] "b" 0 some
    (by decide) (by decide)

-- ==========================================================================
-- common._is_stop_writes_cause (lib/utils/common.py, lines 1661-1672).

/-- Model of Python `str.lower()` for the ASCII strings this code compares. -/
def pyLower (s : String) : String :=
  ⟨s.data.map Char.toLower⟩

/-- Embedding of `_is_stop_writes_cause`: usage and threshold are numbers
(`ℚ` models both int and float inputs), `stop_writes` is the server's own
stop-writes string when supplied. -/
def is_stop_writes_cause (usage threshold : ℚ) (stop_writes : Option String) :
    Bool :=
  if threshold = 0 then false
  else
    if usage ≥ threshold ∧
        (match stop_writes with
         | none => true
         | some s => pyLower s == "true") = true
    then true else false

/-- C9: the stop-writes cause predicate is true exactly when the threshold is
nonzero, usage is at least the threshold and, when a server stop-writes string
is supplied, it equals "true" case-insensitively; `usage=90, threshold=80,
stop_writes="true"` triggers, and a zero threshold never does. -/
theorem c9_stop_writes_cause_characterisation :
    (∀ (u t : ℚ) (sw : Option String),
      is_stop_writes_cause u t sw = true ↔
        (t ≠ 0 ∧ u ≥ t ∧ ∀ s, sw = some s → pyLower s = "true"))
    ∧ is_stop_writes_cause 90 80 (some "true") = true
    ∧ (∀ (u : ℚ) (sw : Option String), is_stop_writes_cause u 0 sw = false) := by
  refine ⟨fun u t sw => ?_, by decide, fun u sw => by simp [is_stop_writes_cause]⟩
  unfold is_stop_writes_cause
  constructor
  · intro h
    by_cases ht : t = 0
    · simp [ht] at h
    · simp only [ht, if_false] at h
      split at h
      · next hc =>
        refine ⟨ht, hc.1, fun s hs => ?_⟩
        subst hs
        simpa using hc.2
      · exact absurd h (by simp)
  · rintro ⟨ht, hu, hsw⟩
    simp only [ht, if_false]
    cases sw with
    | none => simp [hu]
    | some s => simp [hu, hsw s rfl]

/-- Witness for C9 (its main conjunct is an iff with an embedded implication):
the characterisation instantiated at `usage = 90`, `threshold = 80`,
`stop_writes = some "true"`. -/
theorem c9_stop_writes_cause_witness :
    is_stop_writes_cause 90 80 (some "true") = true :=
  (c9_stop_writes_cause_characterisation.1 90 80 (some "true")).mpr
    ⟨by norm_num, by norm_num, fun s hs => by cases hs; decide⟩

-- ==========================================================================
-- common._create_bytewise_histogram_percentiles_output rblock-size version
-- gate (lib/utils/common.py, lines 1962-1975 and 2031-2044).

/-- A server build version: the numeric components `LooseVersion` extracts
from a dotted version string (for example "3.1.3" parses to `[3, 1, 3]`). -/
abbrev Version := List ℕ

/-- Strict `LooseVersion` comparison: Python list comparison, i.e.
lexicographic with a strict prefix comparing less. -/
def ltV : Version → Version → Bool
  | [], [] => false
  | [], _ :: _ => true
  | _ :: _, [] => false
  | a :: as, b :: bs => if a < b then true else if a = b then ltV as bs else false

/-- Non-strict `LooseVersion` comparison (`<=` on Python lists). -/
def leV (x y : Version) : Bool := ltV x y || x == y

/-- Embedding of the per-host rblock-size selection in
`_create_bytewise_histogram_percentiles_output`: starting from 128 bytes, the
size becomes 512 bytes when the host's server version is below 2.7.0 or lies
in the interval from 3.0.0 inclusive to 3.1.3 exclusive. -/
def rblock_size_bytes (as_version : Version) : ℕ :=
  if ltV as_version [2, 7, 0]
      || (leV [3, 0, 0] as_version && ltV as_version [3, 1, 3])
  then 512 else 128

/-- The rblock-size rule as the claim states it: 512 bytes for versions in
[2.7.0, 3.0.0) and every earlier version (that is, every version below
3.0.0), 128 bytes for all other versions. -/
def claimedRblockSizeBytes (as_version : Version) : ℕ :=
  if ltV as_version [3, 0, 0] then 512 else 128

/-- Counterexample to C8: on server version 2.8.0 — inside [2.7.0, 3.0.0) —
the code selects 128 bytes while the claim prescribes 512 bytes. -/
theorem c8_rblock_version_gate_counterexample :
    rblock_size_bytes [2, 8, 0] ≠ claimedRblockSizeBytes [2, 8, 0] := by
  decide

/-- The strict Bool comparison agrees with lexicographic ordering of the
numeric components. -/
theorem ltV_iff_lex (x y : Version) :
    ltV x y = true ↔ List.Lex (· < ·) x y := by
  induction x generalizing y with
  | nil =>
    cases y with
    | nil =>
      constructor
      · intro h; exact absurd h (by decide)
      · intro h; cases h
    | cons b bs =>
      constructor
      · intro _; exact List.Lex.nil
      · intro _; rfl
  | cons a as ih =>
    cases y with
    | nil =>
      constructor
      · intro h; exact absurd h (by simp [ltV])
      · intro h; cases h
    | cons b bs =>
      rcases lt_trichotomy a b with hab | hab | hab
      · constructor
        · intro _; exact List.Lex.rel hab
        · intro _; simp [ltV, hab]
      · subst hab
        have he : ltV (a :: as) (a :: bs) = ltV as bs := by simp [ltV]
        rw [he, ih bs]
        constructor
        · exact List.Lex.cons
        · intro h
          cases h with
          | cons h => exact h
          | rel h => exact absurd h (lt_irrefl a)
      · have h1 : ¬ a < b := not_lt_of_gt hab
        have h2 : a ≠ b := ne_of_gt hab
        constructor
        · intro h
          rw [show ltV (a :: as) (b :: bs) = false by simp [ltV, h1, h2]] at h
          cases h
        · intro h
          cases h with
          | cons h => exact absurd rfl h2
          | rel h => exact absurd h h1

/-- The non-strict Bool comparison agrees with the negation of the reverse
lexicographic ordering. -/
theorem leV_iff_not_lex (x y : Version) :
    leV x y = true ↔ ¬ List.Lex (· < ·) y x := by
  induction x generalizing y with
  | nil =>
    cases y with
    | nil =>
      constructor
      · intro _ h; cases h
      · intro _; decide
    | cons b bs =>
      constructor
      · intro _ h; cases h
      · intro _; simp [leV, ltV]
  | cons a as ih =>
    cases y with
    | nil =>
      constructor
      · intro h; exact absurd h (by simp [leV, ltV])
      · intro h; exact absurd (List.Lex.nil) h
    | cons b bs =>
      rcases lt_trichotomy a b with hab | hab | hab
      · constructor
        · intro _ h
          cases h with
          | cons h => exact absurd hab (lt_irrefl a)
          | rel h => exact absurd hab (asymm h)
        · intro _
          simp [leV, ltV, hab]
      · subst hab
        have he : leV (a :: as) (a :: bs) = leV as bs := by
          simp [leV, ltV, List.cons_beq_cons]
        rw [he, ih bs]
        constructor
        · intro h hx
          cases hx with
          | cons hx => exact h hx
          | rel hx => exact absurd hx (lt_irrefl a)
        · intro h hx
          exact h (List.Lex.cons hx)
      · constructor
        · intro h
          have h1 : ¬ a < b := not_lt_of_gt hab
          have h2 : a ≠ b := ne_of_gt hab
          have : leV (a :: as) (b :: bs) = false := by
            simp [leV, ltV, h1, h2]
          rw [this] at h
          cases h
        · intro h
          exact absurd (List.Lex.rel hab) h

/-- C8 amended: the rblock size used for byte-range labels is 512 bytes
exactly for the server versions below 2.7.0 together with those in
[3.0.0, 3.1.3), and 128 bytes for every other version. -/
theorem c8_rblock_version_gate_amended (v : Version) :
    (rblock_size_bytes v = 512 ↔
      (List.Lex (· < ·) v [2, 7, 0]
        ∨ (¬ List.Lex (· < ·) v [3, 0, 0] ∧ List.Lex (· < ·) v [3, 1, 3])))
    ∧ (rblock_size_bytes v = 128 ↔
      ¬ (List.Lex (· < ·) v [2, 7, 0]
        ∨ (¬ List.Lex (· < ·) v [3, 0, 0] ∧ List.Lex (· < ·) v [3, 1, 3]))) := by
  have key : (ltV v [2, 7, 0]
      || (leV [3, 0, 0] v && ltV v [3, 1, 3])) = true ↔
      (List.Lex (· < ·) v [2, 7, 0]
        ∨ (¬ List.Lex (· < ·) v [3, 0, 0] ∧ List.Lex (· < ·) v [3, 1, 3])) := by
    simp only [Bool.or_eq_true, Bool.and_eq_true, ltV_iff_lex, leV_iff_not_lex]
  unfold rblock_size_bytes
  by_cases hc : (ltV v [2, 7, 0]
      || (leV [3, 0, 0] v && ltV v [3, 1, 3])) = true
  · have hr := key.mp hc
    simp [hc, hr]
  · have hr : ¬ (List.Lex (· < ·) v [2, 7, 0]
        ∨ (¬ List.Lex (· < ·) v [3, 0, 0] ∧ List.Lex (· < ·) v [3, 1, 3])) :=
      fun hp => hc (key.mpr hp)
    have hcf : (ltV v [2, 7, 0]
        || (leV [3, 0, 0] v && ltV v [3, 1, 3])) = false := by
      cases hb : (ltV v [2, 7, 0] || (leV [3, 0, 0] v && ltV v [3, 1, 3])) with
      | false => rfl
      | true => exact absurd hb hc
    simp [hcf, hr]

-- ==========================================================================
-- BaseRField._init_aggregate_group (lib/view/sheet/render/base_rsheet.py,
-- lines 381-415).

/-- Modelled from the spec: `render_utils.Aggregator` (its module is not under
src/) computes a reduction over the entries it is given — the call site in
`_init_aggregate_group` has already removed `NoEntry` and `ErrorEntry` — and
exposes the reduction's result, `none` standing for a Python `None` result.
The reduction function itself (sum, min, max, avg or a custom function) is the
field declaration's `aggregator`, passed in as `aggrFn`. -/
def Aggregator {α : Type} (aggrFn : List (Entry α) → Option α)
    (entries : List (Entry α)) : Option α :=
  aggrFn entries

/-- Embedding of `BaseRField._init_aggregate_group` restricted to its effect
on `self.aggregates`: the value appended for one group.  `none` models the
Python `None` placeholder appended for hidden or aggregator-less fields;
`Except.error` models the `IndexError` that `group[0]` would raise on an empty
group. -/
def init_aggregate_group {α : Type} [DecidableEq α] (hidden : Bool)
    (aggregator : Option (List (Entry α) → Option α))
    (is_grouped_by has_aggregates : Bool) (group : List (Entry α)) :
    Except String (Option (Entry α)) :=
  if hidden then Except.ok none
  else
    match aggregator with
    | none =>
      if is_grouped_by && has_aggregates then
        match group.head? with
        | none => Except.error "IndexError"
        | some g0 => Except.ok (some g0)
      else Except.ok none
    | some aggrFn =>
      if group.any isErrorEntry then Except.ok (some Entry.errorEntry)
      else
        let group_entries := group.filter (fun e => decide (e ≠ Entry.noEntry))
        match Aggregator aggrFn group_entries with
        | none => Except.ok (some Entry.noEntry)
        | some v => Except.ok (some (Entry.value v))

/-- The sum aggregator of the claim's examples: sums the values carried by the
entries it is handed. -/
def sumAggr (entries : List (Entry ℤ)) : Option ℤ :=
  some (entries.filterMap (fun e =>
    match e with
    | Entry.value v => some v
    | _ => none)).sum

/-- C1: for a non-hidden field with a declared aggregator, the group aggregate
is `ErrorEntry` as soon as any entry of the group is `ErrorEntry`, and
otherwise is the aggregator applied to exactly the non-`NoEntry` entries
(a `None` reduction result becoming `NoEntry`); in particular summing
`[Value 3, Absent, Value 5]` gives `Value 8` and summing `[Value 3, Error]`
gives `Error`. -/
theorem c1_aggregate_skips_absent_error_poisons
    (aggrFn : List (Entry ℤ) → Option ℤ) (is_grouped_by has_aggregates : Bool)
    (group : List (Entry ℤ)) :
    init_aggregate_group false (some aggrFn) is_grouped_by has_aggregates group
      = Except.ok (some
          (if group.any isErrorEntry then Entry.errorEntry
           else
             match aggrFn (group.filter (fun e => decide (e ≠ Entry.noEntry))) with
             | none => Entry.noEntry
             | some v => Entry.value v))
    ∧ init_aggregate_group false (some sumAggr) false false
        [Entry.value 3, Entry.noEntry, Entry.value 5]
      = Except.ok (some (Entry.value 8))
    ∧ init_aggregate_group false (some sumAggr) false false
        [Entry.value 3, Entry.errorEntry]
      = Except.ok (some Entry.errorEntry) := by
  refine ⟨?_, by rfl, by rfl⟩
  unfold init_aggregate_group Aggregator
  by_cases herr : group.any isErrorEntry
  · simp [herr]
  · simp only [herr, Bool.false_eq_true, if_false, if_neg]
    split <;> simp_all

-- ==========================================================================
-- BaseRSheet._init_sources (lib/view/sheet/render/base_rsheet.py,
-- lines 95-142): row-key union / merge, then for_each expansion.

/-- A raw value held by one source for one row: a sub-mapping (a dict, the
only shape with `iteritems`), a scalar, the `ErrorEntry` marker, or the
`(sub_key, sub_value)` pair a for-each expansion rebinds. -/
inductive SVal where
  | submap (entries : List (String × SVal))
  | scalar (n : ℤ)
  | err
  | pair (k : String) (v : SVal)

/-- One merged record: an ordered mapping from source name to raw value
(`{'source': value}` in the code). -/
abbrev SRecord := List (String × SVal)

/-- Python dict assignment `d[k] = v`: replace in place when the key exists,
append otherwise. -/
def updateA (l : SRecord) (k : String) (v : SVal) : SRecord :=
  match l with
  | [] => [(k, v)]
  | (k0, v0) :: rest =>
    if k0 = k then (k0, v) :: rest else (k0, v0) :: updateA rest k v

/-- The union of row keys over every source (`source_keys` in
`_init_sources`).  The code builds a Python `set`, whose enumeration order is
unspecified; first-seen order is used as the canonical enumeration. -/
def sourceKeys (sources : List (String × List (String × SVal))) :
    List String :=
  ((sources.map (fun s => s.2.map Prod.fst)).flatten).eraseDups

/-- Building one merged record (`new_source`) for one row key: for every
source, `value[row_key]` — a plain subscript that raises `KeyError` when the
source has no entry for that row key. -/
def convertRow (sources : List (String × List (String × SVal)))
    (row_key : String) : Except String SRecord :=
  sources.mapM (fun s =>
    match s.2.lookup row_key with
    | some v => Except.ok (s.1, v)
    | none => Except.error ("KeyError: " ++ row_key))

/-- The merge stage of `_init_sources`: one merged record per row key in the
union. -/
def convertSources (sources : List (String × List (String × SVal))) :
    Except String (List SRecord) :=
  (sourceKeys sources).mapM (convertRow sources)

/-- C4 (code_bug evidence): with `s1 = {"k": 3}` and `s2 = {}` — the row key
"k" is in the union but missing from `s2` — the merge stage raises `KeyError`
instead of substituting an Absent placeholder, so sheet construction aborts. -/
theorem c4_missing_row_key_raises_keyerror :
    convertSources [("s1", [("k", SVal.scalar 3)]), ("s2", [])]
      = Except.error "KeyError: k" := by
  rfl

/-- Expansion of one for-each key against one merged record: `source[for_each]`
(`KeyError` when absent), then one expanded record per sub-entry when the
value is a sub-mapping, or exactly one record binding the key to the
`ErrorEntry` marker when the value has no `iteritems` (the `AttributeError`
branch). -/
def expandOneKey (for_each : String) (source : SRecord) :
    Except String (List SRecord) :=
  match source.lookup for_each with
  | none => Except.error ("KeyError: " ++ for_each)
  | some sub =>
    match sub with
    | SVal.submap entries =>
      Except.ok (entries.map (fun e => updateA source for_each (SVal.pair e.1 e.2)))
    | _ => Except.ok [updateA source for_each SVal.err]

/-- The for-each stage of `_init_sources` for one merged record: with no
for-each keys the record passes through unchanged; otherwise every declared
key expands the record and the per-key expansions are appended in declared
order. -/
def expandForEach (for_each : List String) (source : SRecord) :
    Except String (List SRecord) :=
  if for_each.isEmpty then Except.ok [source]
  else (for_each.mapM (fun fe => expandOneKey fe source)).map List.flatten

/-- Modelled from the spec: the nested, Cartesian-style expansion C6 claims —
each later-declared for-each key expands every record produced by the
earlier keys' expansion. -/
def nestedExpandForEach (for_each : List String) (source : SRecord) :
    Except String (List SRecord) :=
  for_each.foldlM
    (fun acc fe => (acc.mapM (fun r => expandOneKey fe r)).map List.flatten)
    [source]

/-- Concrete two-key record for the C6 counterexample: both for-each keys hold
one-entry sub-mappings. -/
def c6Record : SRecord :=
  [("k1", SVal.submap [("a", SVal.scalar 1)]),
   ("k2", SVal.submap [("b", SVal.scalar 2)])]

/-- Counterexample to C6: on a record whose two for-each keys each hold a
one-entry sub-mapping, the code's expansion produces two records (each key
expanding the original record) while the claimed nested expansion would
produce one; the two disagree. -/
theorem c6_expansion_not_nested_counterexample :
    expandForEach ["k1", "k2"] c6Record
      ≠ nestedExpandForEach ["k1", "k2"] c6Record := by
  intro h
  have hlen := congrArg (Except.map List.length) h
  have h2 : Except.map List.length (expandForEach ["k1", "k2"] c6Record)
      = Except.ok 2 := by rfl
  have h1 : Except.map List.length (nestedExpandForEach ["k1", "k2"] c6Record)
      = Except.ok 1 := by rfl
  rw [h2, h1] at hlen
  simp at hlen

/-- What one key contributes in the code's (non-nested) expansion, written
out per the claim's per-key description: one record per sub-entry of an
iterable sub-mapping, the key rebound to the `(sub_key, sub_value)` pair; a
single error-marker record otherwise. -/
def perKeyExpansion (source : SRecord) (fe : String) : List SRecord :=
  match source.lookup fe with
  | some (SVal.submap entries) =>
    entries.map (fun e => updateA source fe (SVal.pair e.1 e.2))
  | some _ => [updateA source fe SVal.err]
  | none => []

/-- Auxiliary: under presence of every key, the per-key traversal succeeds
and returns each key's independent expansion. -/
theorem mapM_expandOneKey (source : SRecord) (fes : List String)
    (hp : ∀ fe ∈ fes, (source.lookup fe).isSome) :
    fes.mapM (fun fe => expandOneKey fe source)
      = Except.ok (fes.map (perKeyExpansion source)) := by
  induction fes with
  | nil => rfl
  | cons fe rest ih =>
    have hfe1 : (source.lookup fe).isSome := hp fe (by simp)
    have hexp : expandOneKey fe source = Except.ok (perKeyExpansion source fe) := by
      unfold expandOneKey perKeyExpansion
      match hl : source.lookup fe with
      | none => rw [hl] at hfe1; simp [Option.isSome] at hfe1
      | some (SVal.submap entries) => simp
      | some (SVal.scalar n) => simp
      | some SVal.err => simp
      | some (SVal.pair k v) => simp
    have ihr := ih (fun x hx => hp x (List.mem_cons_of_mem _ hx))
    rw [List.mapM_cons, hexp, ihr]
    rfl

/-- C6 amended: when every declared for-each key is present in the record,
the expansion is the concatenation, in declared order, of each key's
independent expansion of the original record — one record per sub-entry for
an iterable sub-mapping (the key rebound to the `(sub_key, sub_value)` pair),
exactly one error-marker record for a non-iterable value; later keys never
expand the records produced by earlier keys. -/
theorem c6_expansion_is_per_key_concatenation
    (for_each : List String) (source : SRecord)
    (hne : for_each ≠ [])
    (hpresent : ∀ fe ∈ for_each, (source.lookup fe).isSome) :
    expandForEach for_each source
      = Except.ok ((for_each.map (perKeyExpansion source)).flatten) := by
  unfold expandForEach
  cases for_each with
  | nil => exact absurd rfl hne
  | cons f r =>
    simp only [List.isEmpty_cons, Bool.false_eq_true, if_false]
    rw [mapM_expandOneKey source (f :: r) hpresent]
    rfl

/-- Witness for the amended C6 theorem at the concrete two-key record. -/
theorem c6_expansion_witness :
    expandForEach ["k1", "k2"] c6Record
      = Except.ok ((["k1", "k2"].map (perKeyExpansion c6Record)).flatten) :=
  c6_expansion_is_per_key_concatenation ["k1", "k2"] c6Record
    (by simp) (by intro fe hfe; fin_cases hfe <;> rfl)

-- ==========================================================================
-- common._manually_compute_license_data_size (lib/utils/common.py,
-- lines 976-1112).

/-- Python `round` on a rational: banker's rounding (round half to even). -/
def pyRound (q : ℚ) : ℤ :=
  let f := ⌊q⌋
  let frac := q - (f : ℚ)
  if frac < 1 / 2 then f
  else if 1 / 2 < frac then f + 1
  else if f % 2 = 0 then f else f + 1

/-- Per-host namespace statistics, one `Option` field per statistic the
computation reads (`none` = key absent).  Integer statistics are `ℤ`, float
statistics are `ℚ`.  The three replication-factor fields model the three key
spellings `get_value_from_dict` is given, in its declared order (the
first-present-wins behaviour of that lookup is verified separately for C10). -/
structure HostNsStats where
  effective_replication_factor : Option ℤ := none
  replication_factor : Option ℤ := none
  repl_factor : Option ℤ := none
  master_objects : Option ℤ := none
  device_compression_ratio : Option ℚ := none
  pmem_compression_ratio : Option ℚ := none
  device_used_bytes : Option ℚ := none
  pmem_used_bytes : Option ℚ := none
  memory_used_index_bytes : Option ℚ := none
  memory_used_data_bytes : Option ℚ := none

/-- First present value among the candidate lookups, else the default — the
result of `get_value_from_dict` over a tuple of key spellings. -/
def firstSome {α : Type} (l : List (Option α)) (dflt : α) : α :=
  match l with
  | [] => dflt
  | some v :: _ => v
  | none :: rest => firstSome rest dflt

/-- The replication factor a host reports:
`get_value_from_dict(host_stats, ("effective_replication_factor",
"replication-factor", "repl-factor"), default_value=-1, return_type=int)`. -/
def hostReplFactor (host : String × Option HostNsStats) : ℤ :=
  match host.2 with
  | some hs =>
    firstSome [hs.effective_replication_factor, hs.replication_factor,
      hs.repl_factor] (-1)
  | none => -1

/-- The per-record overhead for one host build: 35 bytes before the first
39-byte-overhead server version (`SERVER_39_BYTE_OVERHEAD_FIRST_VERSION`,
kept as the parameter `overhead39First`), 39 bytes at or after it. -/
def hostRecordOverhead (overhead39First : Version) (build : Version) : ℚ :=
  if leV overhead39First build then 39 else 35

/-- Per-namespace accumulator of `_manually_compute_license_data_size`:
`ns_unique_data`, `ns_master_objects`, `ns_repl_factor` (initially 1) and
`ns_record_overhead`. -/
structure NsAccum where
  ns_unique_data : ℚ
  ns_master_objects : ℤ
  ns_repl_factor : ℤ
  ns_record_overhead : ℚ

/-- Initial per-namespace accumulator. -/
def initNsAccum : NsAccum := ⟨0, 0, 1, 0⟩

/-- One iteration of the host loop of `_manually_compute_license_data_size`:
skip falsy/exception host stats, skip hosts reporting replication factor 0,
raise when no replication factor is found, raise on a replication-factor
discrepancy (checked only when the established factor is no longer the
initial 1), then accumulate compression-adjusted device/pmem bytes — or
memory index+data bytes when both are zero — master objects, and
build-version-dependent record overhead. -/
def processHost (overhead39First : Version)
    (server_builds : List (String × Version)) (acc : NsAccum)
    (host : String × Option HostNsStats) : Except String NsAccum :=
  match host.2 with
  | none => Except.ok acc
  | some hs =>
    let repl_factor := firstSome [hs.effective_replication_factor,
      hs.replication_factor, hs.repl_factor] (-1)
    if repl_factor = 0 then Except.ok acc
    else if repl_factor = -1 then
      Except.error "unable to determine cluster replication factor"
    else if acc.ns_repl_factor ≠ 1 ∧ repl_factor ≠ acc.ns_repl_factor then
      Except.error "different replication factor found across nodes"
    else
      let host_master_objects := hs.master_objects.getD 0
      let host_device_bytes :=
        hs.device_used_bytes.getD 0 / hs.device_compression_ratio.getD 1
      let host_pmem_bytes :=
        hs.pmem_used_bytes.getD 0 / hs.pmem_compression_ratio.getD 1
      let host_memory_bytes : ℚ :=
        if host_pmem_bytes = 0 ∧ host_device_bytes = 0 then
          hs.memory_used_index_bytes.getD 0 + hs.memory_used_data_bytes.getD 0
        else 0
      match server_builds.lookup host.1 with
      | none => Except.error "could not find host in build responses"
      | some host_build_version =>
        Except.ok
          { ns_unique_data := acc.ns_unique_data
              + (host_memory_bytes + host_pmem_bytes + host_device_bytes),
            ns_master_objects := acc.ns_master_objects + host_master_objects,
            ns_repl_factor := repl_factor,
            ns_record_overhead := acc.ns_record_overhead
              + (host_master_objects : ℚ)
                * hostRecordOverhead overhead39First host_build_version }

/-- The host loop of `_manually_compute_license_data_size`, written as the
loop runs: process hosts left to right, threading the accumulator, stopping
at the first raise. -/
def processHosts (overhead39First : Version)
    (server_builds : List (String × Version)) (acc : NsAccum) :
    List (String × Option HostNsStats) → Except String NsAccum
  | [] => Except.ok acc
  | h :: t =>
    match processHost overhead39First server_builds acc h with
    | Except.error e => Except.error e
    | Except.ok acc2 => processHosts overhead39First server_builds acc2 t

/-- The namespace-loop body of `_manually_compute_license_data_size`: run the
host loop, then `round((ns_unique_data / ns_repl_factor) -
ns_record_overhead)`, the value written to the namespace's
`license_data.latest`. -/
def nsLicenseDataLatest (overhead39First : Version)
    (server_builds : List (String × Version))
    (ns_stats : List (String × Option HostNsStats)) : Except String ℤ :=
  match processHosts overhead39First server_builds initNsAccum ns_stats with
  | Except.error e => Except.error e
  | Except.ok acc =>
    Except.ok (pyRound
      (acc.ns_unique_data / (acc.ns_repl_factor : ℚ) - acc.ns_record_overhead))

/-- The namespace loop of `_manually_compute_license_data_size`: skip
falsy/exception namespace stats, otherwise compute the namespace's `latest`
and accumulate it into the cluster total. -/
def processNamespaces (overhead39First : Version)
    (server_builds : List (String × Version))
    (st : List (String × ℤ) × ℚ) :
    List (String × Option (List (String × Option HostNsStats))) →
      Except String (List (String × ℤ) × ℚ)
  | [] => Except.ok st
  | ns :: rest =>
    match ns.2 with
    | none => processNamespaces overhead39First server_builds st rest
    | some hosts =>
      match nsLicenseDataLatest overhead39First server_builds hosts with
      | Except.error e => Except.error e
      | Except.ok v =>
        processNamespaces overhead39First server_builds
          (st.1 ++ [(ns.1, v)], st.2 + (v : ℚ)) rest

/-- Embedding of the whole `_manually_compute_license_data_size`: `none`
output models the early return on falsy `namespace_stats` (nothing written);
otherwise the per-namespace `latest` values (falsy/exception namespaces
skipped) and the cluster `latest` (`int(round(...))` of the sum of the
already-rounded per-namespace values). -/
def manually_compute_license_data_size (overhead39First : Version)
    (server_builds : List (String × Version))
    (namespace_stats :
      List (String × Option (List (String × Option HostNsStats)))) :
    Except String (Option (List (String × ℤ) × ℤ)) :=
  if namespace_stats.isEmpty then Except.ok none
  else
    match processNamespaces overhead39First server_builds ([], 0)
        namespace_stats with
    | Except.error e => Except.error e
    | Except.ok st => Except.ok (some (st.1, pyRound st.2))

/-- The claim's per-host byte contribution: device bytes over device
compression ratio plus pmem bytes over pmem compression ratio, or, when both
are zero, memory index plus data bytes. -/
def claimHostBytes (hs : HostNsStats) : ℚ :=
  let db := hs.device_used_bytes.getD 0 / hs.device_compression_ratio.getD 1
  let pb := hs.pmem_used_bytes.getD 0 / hs.pmem_compression_ratio.getD 1
  if db = 0 ∧ pb = 0 then
    hs.memory_used_index_bytes.getD 0 + hs.memory_used_data_bytes.getD 0
  else db + pb

/-- Per-host byte contribution lifted to the host pair (a skipped host
contributes nothing). -/
def claimHostBytesOf (host : String × Option HostNsStats) : ℚ :=
  match host.2 with
  | some hs => claimHostBytes hs
  | none => 0

/-- The claim's per-host master-object count. -/
def claimHostMasterObjects (host : String × Option HostNsStats) : ℤ :=
  match host.2 with
  | some hs => hs.master_objects.getD 0
  | none => 0

/-- The claim's per-host record-overhead contribution: master objects times
35 or 39 bytes according to the host's build version. -/
def claimHostOverheadOf (overhead39First : Version)
    (server_builds : List (String × Version))
    (host : String × Option HostNsStats) : ℚ :=
  match host.2, server_builds.lookup host.1 with
  | some hs, some b =>
    (hs.master_objects.getD 0 : ℚ) * hostRecordOverhead overhead39First b
  | _, _ => 0

/-- Auxiliary for C3: on well-formed hosts all reporting the same replication
factor, the host fold accumulates the per-host sums and establishes that
factor. -/
theorem processHost_fold_wf (overhead39First : Version)
    (sb : List (String × Version)) (r : ℤ) (hr0 : r ≠ 0) (hr1 : r ≠ -1) :
    ∀ (hosts : List (String × Option HostNsStats)) (acc : NsAccum),
      (∀ h ∈ hosts, h.2.isSome ∧ hostReplFactor h = r
        ∧ (sb.lookup h.1).isSome) →
      (acc.ns_repl_factor = 1 ∨ acc.ns_repl_factor = r) →
      processHosts overhead39First sb acc hosts = Except.ok
        ⟨acc.ns_unique_data + (hosts.map claimHostBytesOf).sum,
         acc.ns_master_objects + (hosts.map claimHostMasterObjects).sum,
         if hosts.isEmpty then acc.ns_repl_factor else r,
         acc.ns_record_overhead
           + (hosts.map (claimHostOverheadOf overhead39First sb)).sum⟩ := by
  intro hosts
  induction hosts with
  | nil =>
    intro acc _ _
    simp only [processHosts, List.map_nil, List.sum_nil, add_zero,
      List.isEmpty_nil, if_pos]
  | cons h t ih =>
    intro acc hwf hrf
    obtain ⟨hsome, hrfh, hlk⟩ := hwf h (by simp)
    obtain ⟨hs, h2eq⟩ := Option.isSome_iff_exists.mp hsome
    obtain ⟨b, hbeq⟩ := Option.isSome_iff_exists.mp hlk
    have hrffs : firstSome [hs.effective_replication_factor,
        hs.replication_factor, hs.repl_factor] (-1) = r := by
      rw [← hrfh]; unfold hostReplFactor; rw [h2eq]
    have hstep : processHost overhead39First sb acc h = Except.ok
        ⟨acc.ns_unique_data + claimHostBytesOf h,
         acc.ns_master_objects + claimHostMasterObjects h,
         r,
         acc.ns_record_overhead + claimHostOverheadOf overhead39First sb h⟩ := by
      unfold processHost
      rw [h2eq]
      simp only [hrffs]
      rw [if_neg hr0, if_neg hr1]
      have hnd : ¬ (acc.ns_repl_factor ≠ 1 ∧ r ≠ acc.ns_repl_factor) := by
        rcases hrf with h1 | h1
        · intro hc; exact hc.1 h1
        · intro hc; exact hc.2 h1.symm
      rw [if_neg hnd, hbeq]
      have hbytes :
          (if hs.pmem_used_bytes.getD 0 / hs.pmem_compression_ratio.getD 1 = 0
              ∧ hs.device_used_bytes.getD 0
                / hs.device_compression_ratio.getD 1 = 0 then
            hs.memory_used_index_bytes.getD 0
              + hs.memory_used_data_bytes.getD 0
          else (0 : ℚ))
          + hs.pmem_used_bytes.getD 0 / hs.pmem_compression_ratio.getD 1
          + hs.device_used_bytes.getD 0 / hs.device_compression_ratio.getD 1
          = claimHostBytes hs := by
        unfold claimHostBytes
        by_cases hz : hs.device_used_bytes.getD 0
            / hs.device_compression_ratio.getD 1 = 0
          ∧ hs.pmem_used_bytes.getD 0 / hs.pmem_compression_ratio.getD 1 = 0
        · rw [if_pos hz, if_pos ⟨hz.2, hz.1⟩, hz.1, hz.2]; ring
        · have hz2 : ¬ (hs.pmem_used_bytes.getD 0
              / hs.pmem_compression_ratio.getD 1 = 0
            ∧ hs.device_used_bytes.getD 0
              / hs.device_compression_ratio.getD 1 = 0) := by
            intro hc; exact hz ⟨hc.2, hc.1⟩
          rw [if_neg hz, if_neg hz2]; ring
      simp only [claimHostBytesOf, claimHostMasterObjects, claimHostOverheadOf,
        h2eq, hbeq]
      rw [← hbytes]
    have iht := ih ⟨acc.ns_unique_data + claimHostBytesOf h,
        acc.ns_master_objects + claimHostMasterObjects h,
        r,
        acc.ns_record_overhead + claimHostOverheadOf overhead39First sb h⟩
      (fun x hx => hwf x (List.mem_cons_of_mem _ hx)) (Or.inr rfl)
    show processHosts overhead39First sb acc (h :: t) = _
    unfold processHosts
    rw [hstep]
    dsimp only
    dsimp only at iht
    rw [iht]
    simp only [List.map_cons, List.sum_cons, List.isEmpty_cons]
    simp [ite_self, add_assoc]

/-- C3: for any namespace whose reporting hosts all carry stats, a build
entry, and one common replication factor, the manually computed license data
size for the namespace is the sum over hosts of (device bytes over device
compression ratio plus pmem bytes over pmem compression ratio, or memory
index plus data bytes when both are zero), divided by the common replication
factor, minus the sum of master objects times the build-gated per-record
overhead (35 bytes before the 39-byte-overhead version, 39 at or after). -/
theorem c3_manual_license_per_namespace (overhead39First : Version)
    (sb : List (String × Version))
    (hosts : List (String × Option HostNsStats)) (r : ℤ) (hr : 0 < r)
    (hwf : ∀ h ∈ hosts, h.2.isSome ∧ hostReplFactor h = r
      ∧ (sb.lookup h.1).isSome) :
    nsLicenseDataLatest overhead39First sb hosts = Except.ok (pyRound
      ((hosts.map claimHostBytesOf).sum / (r : ℚ)
        - (hosts.map (claimHostOverheadOf overhead39First sb)).sum)) := by
  have hr0 : r ≠ 0 := by omega
  have hr1 : r ≠ -1 := by omega
  unfold nsLicenseDataLatest
  rw [processHost_fold_wf overhead39First sb r hr0 hr1 hosts initNsAccum hwf
    (Or.inl rfl)]
  cases hosts with
  | nil => simp [initNsAccum]
  | cons h t =>
    simp only [List.isEmpty_cons, Bool.false_eq_true, if_false, initNsAccum]
    norm_num

/-- Concrete host of the claim's example: `memory_used_data_bytes = 1000`,
`repl-factor = 1`, `master_objects = 10`, on a pre-39-byte-overhead build. -/
def c3Host : HostNsStats :=
  { repl_factor := some 1, master_objects := some 10,
    memory_used_data_bytes := some 1000 }

/-- Witness for C3: the claim's single-node example computes
`1000 - 10 * 35 = 650`. -/
theorem c3_manual_license_per_namespace_witness :
    nsLicenseDataLatest [4, 2] [("n1", [4, 0])] [("n1", some c3Host)]
      = Except.ok 650 := by
  rw [c3_manual_license_per_namespace [4, 2] [("n1", [4, 0])]
    [("n1", some c3Host)] 1 (by norm_num)
    (by
      intro x hx
      rcases List.mem_singleton.mp hx with rfl
      exact ⟨rfl, rfl, rfl⟩)]
  norm_num [claimHostBytesOf, claimHostBytes, claimHostOverheadOf, c3Host,
    hostRecordOverhead, leV, ltV, pyRound, Int.floor_intCast]

/-- Host reporting replication factor 1 (C7 counterexample). -/
def c7HostA : HostNsStats := { repl_factor := some 1 }

/-- Host reporting replication factor 2 (C7 counterexample). -/
def c7HostB : HostNsStats := { repl_factor := some 2 }

/-- Counterexample to C7: two nodes of namespace ns1 report the different
nonzero replication factors 1 and 2, yet the computation completes without
raising — the discrepancy check is skipped while the established factor still
equals the initial sentinel 1. -/
theorem c7_differing_repl_factors_no_raise :
    manually_compute_license_data_size [4, 2] [("a", [4, 0]), ("b", [4, 0])]
      [("ns1", some [("a", some c7HostA), ("b", some c7HostB)])]
      = Except.ok (some ([("ns1", 0)], 0)) := by
  have hacc : processHosts [4, 2] [("a", [4, 0]), ("b", [4, 0])] initNsAccum
      [("a", some c7HostA), ("b", some c7HostB)]
      = Except.ok ⟨0, 0, 2, 0⟩ := by
    simp [processHosts, processHost, c7HostA, c7HostB, firstSome, initNsAccum]
    rfl
  have h1 : nsLicenseDataLatest [4, 2] [("a", [4, 0]), ("b", [4, 0])]
      [("a", some c7HostA), ("b", some c7HostB)] = Except.ok 0 := by
    unfold nsLicenseDataLatest
    rw [hacc]
    norm_num [pyRound]
  simp only [manually_compute_license_data_size, processNamespaces, h1,
    List.isEmpty_cons, Bool.false_eq_true, if_false]
  norm_num [pyRound]

/-- Did the computation finish without raising? -/
def isOkE {ε α : Type} : Except ε α → Bool
  | Except.ok _ => true
  | Except.error _ => false

/-- The discrepancy pattern the code actually detects: walking the reported
replication factors in host order with the established factor starting at the
sentinel 1, a raise happens exactly when some factor differs from an
established factor that is not 1. -/
def chainViolation (s : ℤ) : List ℤ → Bool
  | [] => false
  | r :: rs => (decide (s ≠ 1) && decide (r ≠ s)) || chainViolation r rs

/-- Auxiliary for C7: over well-formed hosts the host loop raises exactly on
the chain-violation pattern, whatever the starting accumulator. -/
theorem processHosts_isOk_iff_chain (overhead39First : Version)
    (sb : List (String × Version)) :
    ∀ (hosts : List (String × Option HostNsStats)) (acc : NsAccum),
      (∀ h ∈ hosts, h.2.isSome ∧ hostReplFactor h ≠ 0 ∧ hostReplFactor h ≠ -1
        ∧ (sb.lookup h.1).isSome) →
      isOkE (processHosts overhead39First sb acc hosts)
        = !(chainViolation acc.ns_repl_factor (hosts.map hostReplFactor)) := by
  intro hosts
  induction hosts with
  | nil => intro acc _; rfl
  | cons h t ih =>
    intro acc hwf
    obtain ⟨hsome, hrf0, hrf1, hlk⟩ := hwf h (by simp)
    obtain ⟨hs, h2eq⟩ := Option.isSome_iff_exists.mp hsome
    obtain ⟨b, hbeq⟩ := Option.isSome_iff_exists.mp hlk
    have hrfval : hostReplFactor h = firstSome [hs.effective_replication_factor,
        hs.replication_factor, hs.repl_factor] (-1) := by
      unfold hostReplFactor; rw [h2eq]
    by_cases hd : acc.ns_repl_factor ≠ 1
        ∧ firstSome [hs.effective_replication_factor, hs.replication_factor,
            hs.repl_factor] (-1) ≠ acc.ns_repl_factor
    · have hstep : processHost overhead39First sb acc h
          = Except.error "different replication factor found across nodes" := by
        unfold processHost
        rw [h2eq]
        dsimp only
        rw [if_neg (hrfval ▸ hrf0), if_neg (hrfval ▸ hrf1), if_pos hd]
      show isOkE (processHosts overhead39First sb acc (h :: t)) = _
      unfold processHosts
      rw [hstep]
      simp only [List.map_cons, chainViolation, hrfval]
      rw [decide_eq_true hd.1, decide_eq_true hd.2]
      rfl
    · have hstep : ∃ acc2 : NsAccum,
          processHost overhead39First sb acc h = Except.ok acc2
          ∧ acc2.ns_repl_factor = hostReplFactor h := by
        unfold processHost
        rw [h2eq]
        dsimp only
        rw [if_neg (hrfval ▸ hrf0), if_neg (hrfval ▸ hrf1), if_neg hd, hbeq]
        exact ⟨_, rfl, hrfval.symm⟩
      obtain ⟨acc2, hpeq, hacc2⟩ := hstep
      show isOkE (processHosts overhead39First sb acc (h :: t)) = _
      unfold processHosts
      rw [hpeq]
      have iht := ih acc2 (fun x hx => hwf x (List.mem_cons_of_mem _ hx))
      rw [iht, hacc2]
      simp only [List.map_cons, chainViolation, hrfval]
      have : (decide (acc.ns_repl_factor ≠ 1)
          && decide (firstSome [hs.effective_replication_factor,
              hs.replication_factor, hs.repl_factor] (-1)
            ≠ acc.ns_repl_factor)) = false := by
        rcases not_and_or.mp hd with hc | hc
        · rw [decide_eq_false hc, Bool.false_and]
        · rw [decide_eq_false hc, Bool.and_false]
      rw [this, Bool.false_or]

/-- C7 amended: over hosts that all carry stats, a build entry and a found,
nonzero replication factor, the per-namespace computation raises exactly when
some node reports a factor different from the previously established one
while that established factor is not 1 — the established factor starts at the
sentinel 1 (so a leading factor-1 report lets a later different factor through
without raising) and is overwritten by each reporting node; in particular
equal factors across all nodes never raise. -/
theorem c7_repl_discrepancy_characterisation (overhead39First : Version)
    (sb : List (String × Version))
    (hosts : List (String × Option HostNsStats))
    (hwf : ∀ h ∈ hosts, h.2.isSome ∧ hostReplFactor h ≠ 0
      ∧ hostReplFactor h ≠ -1 ∧ (sb.lookup h.1).isSome) :
    isOkE (nsLicenseDataLatest overhead39First sb hosts)
      = !(chainViolation 1 (hosts.map hostReplFactor)) := by
  have hfold := processHosts_isOk_iff_chain overhead39First sb hosts
    initNsAccum hwf
  unfold nsLicenseDataLatest
  cases hf : processHosts overhead39First sb initNsAccum hosts with
  | error e => rw [hf] at hfold; exact hfold
  | ok acc => rw [hf] at hfold; exact hfold

/-- Witness for the amended C7 theorem: factors [2, 3] do raise (the first
report establishes 2, the second differs while 2 ≠ 1), matching the
chain-violation pattern. -/
theorem c7_repl_discrepancy_witness :
    isOkE (nsLicenseDataLatest [4, 2] [("a", [4, 0]), ("b", [4, 0])]
        [("a", some { repl_factor := some 2 }),
         ("b", some { repl_factor := some 3 })])
      = !(chainViolation 1
          ([("a", some ({ repl_factor := some 2 } : HostNsStats)),
            ("b", some ({ repl_factor := some 3 } : HostNsStats))].map
            hostReplFactor)) :=
  c7_repl_discrepancy_characterisation [4, 2] [("a", [4, 0]), ("b", [4, 0])]
    [("a", some { repl_factor := some 2 }),
     ("b", some { repl_factor := some 3 })]
    (by
      intro x hx
      fin_cases hx
      · exact ⟨rfl, by decide, by decide, rfl⟩
      · exact ⟨rfl, by decide, by decide, rfl⟩)

-- ==========================================================================
-- BaseRSheet.project_fields / _project_field
-- (lib/view/sheet/render/base_rsheet.py, lines 149-178).

/-- Modelled from the spec: the projector protocol of the `decl` module (not
under src/) — a projector either returns a value or raises
`decl.NoEntryException` (expected absence) or `decl.ErrorEntryException`
(a fault not recognised as expected absence); these are exactly the two
exception types `_project_field` catches. -/
inductive PEx where
  | noEntryExc
  | errorEntryExc
deriving DecidableEq, Repr

/-- A field declaration: a leaf field with its key and projector, or a
`decl.TupleField` holding child declarations under its own key. -/
inductive DField (σ α : Type) where
  | leaf (key : String) (projector : σ → Except PEx α)
  | tuple (key : String) (fields : List (DField σ α))

/-- One slot of a projection: a leaf entry, or the nested child projection a
`TupleField` produces. -/
inductive PCell (α : Type) where
  | entry (e : Entry α)
  | nested (children : List (String × PCell α))

/-- The try/except of `_project_field`: a returned value stays a value,
`NoEntryException` becomes the `NoEntry` sentinel, `ErrorEntryException`
becomes the `ErrorEntry` sentinel. -/
def projectEntryResult {α : Type} (r : Except PEx α) : Entry α :=
  match r with
  | Except.ok v => Entry.value v
  | Except.error PEx.noEntryExc => Entry.noEntry
  | Except.error PEx.errorEntryExc => Entry.errorEntry

/-- Embedding of `_project_field`: a leaf projects through its projector with
the try/except above; a `TupleField` recurses into its children, producing a
nested child projection under the tuple's key. -/
def projectField {σ α : Type} : DField σ α → σ → String × PCell α
  | DField.leaf k p, s => (k, PCell.entry (projectEntryResult (p s)))
  | DField.tuple k fs, s =>
    (k, PCell.nested (fs.attach.map (fun f => projectField f.1 s)))
termination_by f _ => sizeOf f
decreasing_by
  simp_wf
  have := List.sizeOf_lt_of_mem f.2
  omega

/-- Embedding of `project_fields`: one projection per source record, each the
ordered list of every declared field's projection of that record. -/
def project_fields {σ α : Type} (fields : List (DField σ α))
    (sources : List σ) : List (List (String × PCell α)) :=
  sources.map (fun s => fields.map (fun f => projectField f s))

/-- C5: projection is total and per-slot: every source record yields a row,
every row holds exactly the declared fields' projections of its own record
(so a fault in one projector affects only that one field of that one record
and never aborts the rest), and a projector raising the exception not
recognised as expected absence yields exactly an `ErrorEntry` cell, while
expected absence yields `NoEntry`. -/
theorem c5_projector_faults_are_local {σ α : Type}
    (fields : List (DField σ α)) (sources : List σ) (i : ℕ) :
    (project_fields fields sources).get? i
      = (sources.get? i).map (fun s => fields.map (fun f => projectField f s))
    ∧ (∀ (k : String) (p : σ → Except PEx α) (s : σ),
        p s = Except.error PEx.errorEntryExc →
        projectField (DField.leaf k p) s = (k, PCell.entry Entry.errorEntry))
    ∧ (∀ (k : String) (p : σ → Except PEx α) (s : σ),
        p s = Except.error PEx.noEntryExc →
        projectField (DField.leaf k p) s = (k, PCell.entry Entry.noEntry)) := by
  refine ⟨?_, ?_, ?_⟩
  · unfold project_fields
    rw [List.get?_map]
  · intro k p s hp
    unfold projectField
    rw [hp]
    rfl
  · intro k p s hp
    unfold projectField
    rw [hp]
    rfl

/-- Concrete field list for the C5 witness: field "a" always faults, field
"b" projects the record itself. -/
def c5Fields : List (DField ℤ ℤ) :=
  [DField.leaf "a" (fun _ => Except.error PEx.errorEntryExc),
   DField.leaf "b" (fun n => Except.ok n)]

/-- Witness for C5: with a faulting projector on field "a", the first record
still projects in full — "a" an `ErrorEntry` cell, "b" its own value — and
the faulting leaf projects to exactly the `ErrorEntry` cell. -/
theorem c5_projector_faults_are_local_witness :
    (project_fields c5Fields [7, 8]).get? 0
      = (([7, 8] : List ℤ).get? 0).map
          (fun s => c5Fields.map (fun f => projectField f s))
    ∧ projectField (DField.leaf "a"
        (fun _ => (Except.error PEx.errorEntryExc : Except PEx ℤ))) (7 : ℤ)
      = ("a", PCell.entry Entry.errorEntry) :=
  ⟨(c5_projector_faults_are_local c5Fields [7, 8] 0).1,
   (c5_projector_faults_are_local c5Fields [7, 8] 0).2.1 "a"
     (fun _ => Except.error PEx.errorEntryExc) (7 : ℤ) rfl⟩

-- ==========================================================================
-- BaseRSheet.group_by_fields / order_by_fields
-- (lib/view/sheet/render/base_rsheet.py, lines 190-235).

/-- A projected record viewed through its sortable keys: Python's
`itemgetter(key)` applied to the projection, the extracted entries modelled
as integers (any linearly ordered value type would do). -/
abbrev SKRec := String → ℤ

/-- Stable insertion of `a` into `l`: `a` is placed before the first element
`b` with `le a b`, hence before every element it ties with and after every
earlier-listed element it ties with. -/
def sInsert {α : Type} (le : α → α → Bool) (a : α) : List α → List α
  | [] => [a]
  | b :: l => if le a b then a :: b :: l else b :: sInsert le a l

/-- Stable insertion sort: the model of Python's stable `sorted` /
`list.sort`, which any stable sort agrees with for a fixed comparison. -/
def sSort {α : Type} (le : α → α → Bool) : List α → List α
  | [] => []
  | a :: l => sInsert le a (sSort le l)

/-- The comparison `sorted(..., key=itemgetter(k))` effects: compare the
records' values at key `k`. -/
def keyLe (k : String) (a b : SKRec) : Bool := decide (a k ≤ b k)

/-- Lexicographic comparison over a list of keys, first key most
significant. -/
def lexLe : List String → SKRec → SKRec → Bool
  | [], _, _ => true
  | k :: ks, a, b =>
    if a k < b k then true else if a k = b k then lexLe ks a b else false

/-- `itertools.groupby`: partition into maximal runs of consecutive elements
with equal keys, each run labelled with its key. -/
def groupRuns {α β : Type} [DecidableEq β] (key : α → β) :
    List α → List (β × List α)
  | [] => []
  | a :: l =>
    match groupRuns key l with
    | [] => [(key a, [a])]
    | (k, g) :: rest =>
      if key a = k then (key a, a :: g) :: rest
      else (key a, [a]) :: (k, g) :: rest

/-- Embedding of `BaseRSheet.group_by_fields`: starting from the single
trivial grouping, refine by each group-by key left to right — stable-sort
each current group by the key, split into runs of equal keys, and extend each
group's key tuple.  A `group_bys` given as a single string is normalised to a
one-element list by the caller, as in the code's `StringType` check. -/
def group_by_fields (group_bys : Option (List String))
    (projections : List SKRec) : List (List ℤ × List SKRec) :=
  match group_bys with
  | none => [([], projections)]
  | some gbs =>
    gbs.foldl
      (fun grouping gb =>
        (grouping.map (fun pg =>
          (groupRuns (fun r => r gb) (sSort (keyLe gb) pg.2)).map
            (fun cg => (pg.1 ++ [cg.1], cg.2)))).flatten)
      [([], projections)]

/-- Embedding of `BaseRSheet.order_by_fields`: within each group, apply the
stable in-place sort once per order-by key, iterating the keys in reverse
declared order (`order_bys[::-1]`). -/
def order_by_fields (order_bys : Option (List String))
    (groups : List (List ℤ × List SKRec)) : List (List ℤ × List SKRec) :=
  match order_bys with
  | none => groups
  | some obs =>
    groups.map (fun pg =>
      (pg.1, (obs.reverse).foldl (fun g ob => sSort (keyLe ob) g) pg.2))

/-- The single multi-key stable sort the spec describes: one stable sort
whose comparison is lexicographic on the declared order-by keys, the first
declared key most significant. -/
def multiKeyStableSort (order_bys : List String) (g : List SKRec) :
    List SKRec :=
  sSort (lexLe order_bys) g

/-- Membership is preserved by stable insertion. -/
theorem mem_sInsert {α : Type} (le : α → α → Bool) (a x : α) :
    ∀ l : List α, x ∈ sInsert le a l ↔ x = a ∨ x ∈ l := by
  intro l
  induction l with
  | nil => simp [sInsert]
  | cons b t ih =>
    unfold sInsert
    cases hab : le a b
    · simp only [Bool.false_eq_true, if_false, List.mem_cons, ih]
      tauto
    · rw [if_pos rfl]
      simp only [List.mem_cons]

/-- Membership is preserved by the stable sort. -/
theorem mem_sSort {α : Type} (le : α → α → Bool) (x : α) :
    ∀ l : List α, x ∈ sSort le l ↔ x ∈ l := by
  intro l
  induction l with
  | nil => simp [sSort]
  | cons a t ih =>
    unfold sSort
    rw [mem_sInsert, ih, List.mem_cons]

/-- The stable sort permutes its input. -/
theorem perm_sSort {α : Type} (le : α → α → Bool) :
    ∀ l : List α, List.Perm (sSort le l) l := by
  intro l
  induction l with
  | nil => exact List.Perm.refl _
  | cons a t ih =>
    unfold sSort
    have hins : ∀ (m : List α), List.Perm (sInsert le a m) (a :: m) := by
      intro m
      induction m with
      | nil => exact List.Perm.refl _
      | cons b u ihm =>
        unfold sInsert
        cases hab : le a b
        · simp only [Bool.false_eq_true, if_false]
          exact (ihm.cons b).trans (List.Perm.swap a b u)
        · exact List.Perm.refl _
    exact (hins (sSort le t)).trans (ih.cons a)

/-- Stable insertion into a pairwise-ordered list stays pairwise ordered. -/
theorem sInsert_pairwise {α : Type} (le : α → α → Bool)
    (htot : ∀ x y, le x y = true ∨ le y x = true)
    (htr : ∀ x y z, le x y = true → le y z = true → le x z = true)
    (a : α) :
    ∀ l : List α, l.Pairwise (fun x y => le x y = true) →
      (sInsert le a l).Pairwise (fun x y => le x y = true) := by
  intro l
  induction l with
  | nil => intro _; simp [sInsert]
  | cons b t ih =>
    intro hl
    rcases List.pairwise_cons.mp hl with ⟨hb, ht⟩
    unfold sInsert
    cases hab : le a b
    · simp only [Bool.false_eq_true, if_false]
      refine List.pairwise_cons.mpr ⟨?_, ih ht⟩
      intro x hx
      rcases (mem_sInsert le a x t).mp hx with rfl | hx
      · rcases htot x b with h | h
        · rw [hab] at h; cases h
        · exact h
      · exact hb x hx
    · refine List.pairwise_cons.mpr ⟨?_, hl⟩
      intro x hx
      rcases List.mem_cons.mp hx with rfl | hx
      · exact hab
      · exact htr a b x hab (hb x hx)

/-- The stable sort produces a pairwise-ordered list. -/
theorem sSort_pairwise {α : Type} (le : α → α → Bool)
    (htot : ∀ x y, le x y = true ∨ le y x = true)
    (htr : ∀ x y z, le x y = true → le y z = true → le x z = true) :
    ∀ l : List α, (sSort le l).Pairwise (fun x y => le x y = true) := by
  intro l
  induction l with
  | nil => simp [sSort]
  | cons a t ih =>
    unfold sSort
    exact sInsert_pairwise le htot htr a (sSort le t) ih

/-- Two comparisons that agree on the inserted element against every list
element insert identically. -/
theorem sInsert_congr {α : Type} (le1 le2 : α → α → Bool) (a : α) :
    ∀ l : List α, (∀ x ∈ l, le1 a x = le2 a x) →
      sInsert le1 a l = sInsert le2 a l := by
  intro l
  induction l with
  | nil => intro _; rfl
  | cons b t ih =>
    intro hagree
    unfold sInsert
    rw [← hagree b (by simp)]
    cases hab : le1 a b
    · simp only [Bool.false_eq_true, if_false]
      rw [ih (fun x hx => hagree x (List.mem_cons_of_mem _ hx))]
    · rfl

/-- Unfolding equation: insertion before a smaller-or-equal head. -/
theorem sInsert_cons_pos {α : Type} (le : α → α → Bool) (a b : α)
    (l : List α) (h : le a b = true) :
    sInsert le a (b :: l) = a :: b :: l := by
  unfold sInsert; rw [if_pos h]

/-- Unfolding equation: insertion past a head the element does not precede. -/
theorem sInsert_cons_neg {α : Type} (le : α → α → Bool) (a b : α)
    (l : List α) (h : le a b = false) :
    sInsert le a (b :: l) = b :: sInsert le a l := by
  simp only [sInsert]
  rw [if_neg (by simp [h])]

/-- The lexicographic-style combination of two comparisons: order by `le1`,
break `le1`-ties by `le2`. -/
def cmb {α : Type} (le1 le2 : α → α → Bool) (a b : α) : Bool :=
  if le1 a b then (if le1 b a then le2 a b else true) else false

/-- On a pair where `le2` already holds, the combined comparison collapses to
the primary one. -/
theorem cmb_eq_le1_of_le2 {α : Type} (le1 le2 : α → α → Bool) (a x : α)
    (hax : le2 a x = true) : cmb le1 le2 a x = le1 a x := by
  unfold cmb
  cases l1 : le1 a x
  · rw [if_neg (by simp)]
  · rw [if_pos rfl]
    cases l2 : le1 x a
    · rw [if_neg (by simp)]
    · rw [if_pos rfl]
      exact hax

/-- A combined comparison only holds where the primary comparison holds. -/
theorem le1_of_cmb {α : Type} (le1 le2 : α → α → Bool) (a x : α)
    (h : cmb le1 le2 a x = true) : le1 a x = true := by
  unfold cmb at h
  cases l1 : le1 a x
  · rw [l1] at h
    simp at h
  · rfl

/-- Key commutation step: when `a` strictly `le2`-precedes nothing relative
to `b` (`le2 a b = false`), inserting `b` by the primary comparison and `a`
by the combined comparison can be done in either order. -/
theorem sInsert_comm {α : Type} (le1 le2 : α → α → Bool)
    (htr : ∀ x y z, le1 x y = true → le1 y z = true → le1 x z = true)
    (htot : ∀ x y, le1 x y = true ∨ le1 y x = true)
    (a b : α) (hab : le2 a b = false) :
    ∀ M : List α,
      sInsert le1 b (sInsert (cmb le1 le2) a M)
        = sInsert (cmb le1 le2) a (sInsert le1 b M) := by
  have hcab : cmb le1 le2 a b = (le1 a b && !(le1 b a)) := by
    unfold cmb
    cases h1 : le1 a b <;> cases h2 : le1 b a <;> simp [hab]
  intro M
  induction M with
  | nil =>
    show sInsert le1 b [a] = sInsert (cmb le1 le2) a [b]
    cases h2 : le1 b a
    · have h1 : le1 a b = true := by
        rcases htot a b with h | h
        · exact h
        · rw [h2] at h; cases h
      rw [sInsert_cons_neg le1 b a [] h2,
          sInsert_cons_pos (cmb le1 le2) a b [] (by rw [hcab, h1, h2]; rfl)]
      rfl
    · rw [sInsert_cons_pos le1 b a [] h2,
          sInsert_cons_neg (cmb le1 le2) a b [] (by rw [hcab, h2]; simp)]
      rfl
  | cons c M ih =>
    cases hac : cmb le1 le2 a c <;> cases hbc : le1 b c
    · rw [sInsert_cons_neg (cmb le1 le2) a c M hac,
          sInsert_cons_neg le1 b c (sInsert (cmb le1 le2) a M) hbc,
          sInsert_cons_neg le1 b c M hbc,
          sInsert_cons_neg (cmb le1 le2) a c (sInsert le1 b M) hac,
          ih]
    · have hcabf : cmb le1 le2 a b = false := by
        cases hq : cmb le1 le2 a b
        · rfl
        · exfalso
          rw [hcab] at hq
          have h1 : le1 a b = true := by
            cases h : le1 a b
            · rw [h] at hq; simp at hq
            · rfl
          have h2 : le1 b a = false := by
            cases h : le1 b a
            · rfl
            · rw [h1, h] at hq; simp at hq
          have hac2 : le1 a c = true := htr a b c h1 hbc
          have hca : le1 c a = false := by
            cases h : le1 c a
            · rfl
            · have hba := htr b c a hbc h
              rw [hba] at h2; cases h2
          have hthis : cmb le1 le2 a c = true := by
            unfold cmb
            rw [if_pos hac2, hca]
            simp
          rw [hthis] at hac; cases hac
      rw [sInsert_cons_neg (cmb le1 le2) a c M hac,
          sInsert_cons_pos le1 b c (sInsert (cmb le1 le2) a M) hbc,
          sInsert_cons_pos le1 b c M hbc,
          sInsert_cons_neg (cmb le1 le2) a b (c :: M) hcabf,
          sInsert_cons_neg (cmb le1 le2) a c M hac]
    · have hle1ac : le1 a c = true := le1_of_cmb le1 le2 a c hac
      have hba : le1 b a = false := by
        cases h : le1 b a
        · rfl
        · have hbc2 := htr b a c h hle1ac
          rw [hbc2] at hbc; cases hbc
      rw [sInsert_cons_pos (cmb le1 le2) a c M hac,
          sInsert_cons_neg le1 b a (c :: M) hba,
          sInsert_cons_neg le1 b c M hbc,
          sInsert_cons_pos (cmb le1 le2) a c (sInsert le1 b M) hac]
    · cases h2 : le1 b a
      · have h1 : le1 a b = true := by
          rcases htot a b with h | h
          · exact h
          · rw [h2] at h; cases h
        have hcabt : cmb le1 le2 a b = true := by
          rw [hcab, h1, h2]; rfl
        rw [sInsert_cons_pos (cmb le1 le2) a c M hac,
            sInsert_cons_neg le1 b a (c :: M) h2,
            sInsert_cons_pos le1 b c M hbc,
            sInsert_cons_pos (cmb le1 le2) a b (c :: M) hcabt]
      · have hcabf : cmb le1 le2 a b = false := by
          rw [hcab, h2]; simp
        rw [sInsert_cons_pos (cmb le1 le2) a c M hac,
            sInsert_cons_pos le1 b a (c :: M) h2,
            sInsert_cons_pos le1 b c M hbc,
            sInsert_cons_neg (cmb le1 le2) a b (c :: M) hcabf,
            sInsert_cons_pos (cmb le1 le2) a c M hac]

/-- Sorting by the primary comparison after a stable insertion by the
secondary one (into a secondary-ordered list) equals inserting by the
combined comparison into the primary-sorted list. -/
theorem sSort_sInsert {α : Type} (le1 le2 : α → α → Bool)
    (h1tr : ∀ x y z, le1 x y = true → le1 y z = true → le1 x z = true)
    (h1tot : ∀ x y, le1 x y = true ∨ le1 y x = true)
    (h2tr : ∀ x y z, le2 x y = true → le2 y z = true → le2 x z = true)
    (a : α) :
    ∀ m : List α, m.Pairwise (fun x y => le2 x y = true) →
      sSort le1 (sInsert le2 a m) = sInsert (cmb le1 le2) a (sSort le1 m) := by
  intro m
  induction m with
  | nil => intro _; rfl
  | cons b t ih =>
    intro hm
    rcases List.pairwise_cons.mp hm with ⟨hb, ht⟩
    cases hab : le2 a b
    · rw [sInsert_cons_neg le2 a b t hab]
      show sInsert le1 b (sSort le1 (sInsert le2 a t)) = _
      rw [ih ht, sInsert_comm le1 le2 h1tr h1tot a b hab (sSort le1 t)]
      rfl
    · rw [sInsert_cons_pos le2 a b t hab]
      show sInsert le1 a (sSort le1 (b :: t)) = _
      apply sInsert_congr
      intro x hx
      have hx2 : x ∈ b :: t := (mem_sSort le1 x (b :: t)).mp hx
      have hax : le2 a x = true := by
        rcases List.mem_cons.mp hx2 with rfl | hx3
        · exact hab
        · exact h2tr a b x hab (hb x hx3)
      exact (cmb_eq_le1_of_le2 le1 le2 a x hax).symm

/-- Radix-style composition: a stable sort by `le1` after a stable sort by
`le2` is one stable sort by the lexicographic combination of the two. -/
theorem sSort_sSort {α : Type} (le1 le2 : α → α → Bool)
    (h1tr : ∀ x y z, le1 x y = true → le1 y z = true → le1 x z = true)
    (h1tot : ∀ x y, le1 x y = true ∨ le1 y x = true)
    (h2tr : ∀ x y z, le2 x y = true → le2 y z = true → le2 x z = true)
    (h2tot : ∀ x y, le2 x y = true ∨ le2 y x = true) :
    ∀ l : List α, sSort le1 (sSort le2 l) = sSort (cmb le1 le2) l := by
  intro l
  induction l with
  | nil => rfl
  | cons a t ih =>
    show sSort le1 (sInsert le2 a (sSort le2 t)) = _
    rw [sSort_sInsert le1 le2 h1tr h1tot h2tr a (sSort le2 t)
      (sSort_pairwise le2 h2tot h2tr t), ih]
    rfl

/-- The single-key comparison is total. -/
theorem keyLe_total (k : String) :
    ∀ a b : SKRec, keyLe k a b = true ∨ keyLe k b a = true := by
  intro a b
  unfold keyLe
  rcases le_total (a k) (b k) with h | h
  · left; simp [h]
  · right; simp [h]

/-- The single-key comparison is transitive. -/
theorem keyLe_trans (k : String) :
    ∀ a b c : SKRec, keyLe k a b = true → keyLe k b c = true →
      keyLe k a c = true := by
  intro a b c
  unfold keyLe
  simp only [decide_eq_true_eq]
  omega

/-- Unfolding characterisation of the lexicographic comparison at a key. -/
theorem lexLe_cons_iff (k : String) (t : List String) (a b : SKRec) :
    lexLe (k :: t) a b = true ↔
      (a k < b k ∨ (a k = b k ∧ lexLe t a b = true)) := by
  simp only [lexLe]
  constructor
  · intro h
    by_cases h1 : a k < b k
    · exact Or.inl h1
    · rw [if_neg h1] at h
      by_cases h2 : a k = b k
      · rw [if_pos h2] at h; exact Or.inr ⟨h2, h⟩
      · rw [if_neg h2] at h; cases h
  · intro h
    rcases h with h1 | ⟨h2, h3⟩
    · rw [if_pos h1]
    · rw [if_neg (by omega), if_pos h2]; exact h3

/-- The lexicographic comparison is total. -/
theorem lexLe_total (ks : List String) :
    ∀ a b : SKRec, lexLe ks a b = true ∨ lexLe ks b a = true := by
  induction ks with
  | nil => intro a b; exact Or.inl rfl
  | cons k t ih =>
    intro a b
    rcases lt_trichotomy (a k) (b k) with h | h | h
    · exact Or.inl ((lexLe_cons_iff k t a b).mpr (Or.inl h))
    · rcases ih a b with h2 | h2
      · exact Or.inl ((lexLe_cons_iff k t a b).mpr (Or.inr ⟨h, h2⟩))
      · exact Or.inr ((lexLe_cons_iff k t b a).mpr (Or.inr ⟨h.symm, h2⟩))
    · exact Or.inr ((lexLe_cons_iff k t b a).mpr (Or.inl h))

/-- The lexicographic comparison is transitive. -/
theorem lexLe_trans (ks : List String) :
    ∀ a b c : SKRec, lexLe ks a b = true → lexLe ks b c = true →
      lexLe ks a c = true := by
  induction ks with
  | nil => intro a b c _ _; rfl
  | cons k t ih =>
    intro a b c hab hbc
    apply (lexLe_cons_iff k t a c).mpr
    rcases (lexLe_cons_iff k t a b).mp hab with h1 | ⟨h1, h2⟩ <;>
      rcases (lexLe_cons_iff k t b c).mp hbc with h3 | ⟨h3, h4⟩
    · exact Or.inl (by omega)
    · exact Or.inl (by omega)
    · exact Or.inl (by omega)
    · exact Or.inr ⟨by omega, ih a b c h2 h4⟩

/-- Sorting with an always-true comparison (the empty key list) is the
identity: every element is inserted at the front in turn. -/
theorem sSort_true_id {α : Type} (le : α → α → Bool)
    (h : ∀ x y, le x y = true) :
    ∀ l : List α, sSort le l = l := by
  intro l
  induction l with
  | nil => rfl
  | cons a t ih =>
    show sInsert le a (sSort le t) = a :: t
    rw [ih]
    cases t with
    | nil => rfl
    | cons c u => rw [sInsert_cons_pos le a c u (h a c)]

/-- The combination of a key comparison with the lexicographic comparison on
the remaining keys is the lexicographic comparison on the full key list. -/
theorem cmb_keyLe_lexLe (k : String) (ks : List String) :
    cmb (keyLe k) (lexLe ks) = lexLe (k :: ks) := by
  funext a b
  have hiff : cmb (keyLe k) (lexLe ks) a b = true ↔
      lexLe (k :: ks) a b = true := by
    rw [lexLe_cons_iff]
    unfold cmb keyLe
    constructor
    · intro h
      by_cases h1 : a k ≤ b k
      · rw [if_pos (by simp only [decide_eq_true_eq]; exact h1)] at h
        by_cases h2 : b k ≤ a k
        · rw [if_pos (by simp only [decide_eq_true_eq]; exact h2)] at h
          exact Or.inr ⟨by omega, h⟩
        · exact Or.inl (by omega)
      · rw [if_neg (by simp only [decide_eq_true_eq]; exact h1)] at h
        cases h
    · intro h
      rcases h with h1 | ⟨h1, h2⟩
      · rw [if_pos (by simp only [decide_eq_true_eq]; omega),
            if_neg (by simp only [decide_eq_true_eq]; omega)]
      · rw [if_pos (by simp only [decide_eq_true_eq]; omega),
            if_pos (by simp only [decide_eq_true_eq]; omega)]
        exact h2
  cases hb2 : lexLe (k :: ks) a b
  · cases hb1 : cmb (keyLe k) (lexLe ks) a b
    · rfl
    · have hx := hiff.mp hb1
      rw [hx] at hb2
      cases hb2
  · exact hiff.mpr hb2

/-- Applying the per-key stable sorts in reverse declared order — the loop of
`order_by_fields` — equals the single lexicographic stable sort. -/
theorem order_fold_eq (obs : List String) :
    ∀ g : List SKRec,
      (obs.reverse).foldl (fun g ob => sSort (keyLe ob) g) g
        = sSort (lexLe obs) g := by
  induction obs with
  | nil => intro g; exact (sSort_true_id (lexLe []) (fun _ _ => rfl) g).symm
  | cons k t ih =>
    intro g
    rw [List.reverse_cons, List.foldl_append]
    simp only [List.foldl_cons, List.foldl_nil]
    rw [ih g,
      sSort_sSort (keyLe k) (lexLe t) (keyLe_trans k) (keyLe_total k)
        (lexLe_trans t) (lexLe_total t) g,
      cmb_keyLe_lexLe k t]

/-- Inserting an element of a tie class places it before every member of the
class already in the list: filtering to the class prepends it. -/
theorem sInsert_filter_pos {α : Type} (le : α → α → Bool) (p : α → Bool)
    (a : α) (hpa : p a = true)
    (himp : ∀ b, p b = true → le a b = true) :
    ∀ l : List α, (sInsert le a l).filter p = a :: l.filter p := by
  intro l
  induction l with
  | nil => simp [sInsert, hpa]
  | cons c t ih =>
    cases hac : le a c
    · have hpc : p c = false := by
        cases h : p c
        · rfl
        · have := himp c h
          rw [this] at hac; cases hac
      rw [sInsert_cons_neg le a c t hac, List.filter_cons_of_neg (by simp [hpc]),
        ih, List.filter_cons_of_neg (by simp [hpc])]
    · rw [sInsert_cons_pos le a c t hac,
        List.filter_cons_of_pos (by simp [hpa])]

/-- Inserting an element outside the class leaves the class filter
unchanged. -/
theorem sInsert_filter_neg {α : Type} (le : α → α → Bool) (p : α → Bool)
    (a : α) (hpa : p a = false) :
    ∀ l : List α, (sInsert le a l).filter p = l.filter p := by
  intro l
  induction l with
  | nil => simp [sInsert, hpa]
  | cons c t ih =>
    cases hac : le a c
    · rw [sInsert_cons_neg le a c t hac]
      cases hpc : p c
      · rw [List.filter_cons_of_neg (by simp [hpc]), ih,
          List.filter_cons_of_neg (by simp [hpc])]
      · rw [List.filter_cons_of_pos (by simp [hpc]), ih,
          List.filter_cons_of_pos (by simp [hpc])]
    · rw [sInsert_cons_pos le a c t hac,
        List.filter_cons_of_neg (by simp [hpa])]

/-- Stability of the stable sort: restricted to any tie class of the
comparison, the sorted list lists the class members in their original
relative order. -/
theorem sSort_stable {α : Type} (le : α → α → Bool)
    (htr : ∀ x y z, le x y = true → le y z = true → le x z = true)
    (x : α) :
    ∀ l : List α,
      (sSort le l).filter (fun y => le x y && le y x)
        = l.filter (fun y => le x y && le y x) := by
  intro l
  induction l with
  | nil => rfl
  | cons a t ih =>
    show (sInsert le a (sSort le t)).filter _ = _
    cases hpa : (le x a && le a x)
    · rw [sInsert_filter_neg le _ a hpa, ih,
        List.filter_cons_of_neg (by simp [hpa])]
    · have hpa2 := hpa
      simp only [Bool.and_eq_true] at hpa2
      obtain ⟨hxa, hax⟩ := hpa2
      rw [sInsert_filter_pos le _ a hpa ?himp, ih,
        List.filter_cons_of_pos (by simp [hpa])]
      intro b hpb
      have hpb2 := hpb
      simp only [Bool.and_eq_true] at hpb2
      obtain ⟨hxb, hbx⟩ := hpb2
      exact htr a x b hax hxb

/-- C2: for every sheet, grouping (sort + partition per group-by key, left to
right) followed by ordering (the per-key stable sorts applied in reverse
declared order within each group) leaves every group ordered exactly as the
single multi-key stable sort with the first declared order-by key most
significant; that sort permutes each group, orders it lexicographically, and
keeps tied records (equal on every order-by key) in their prior relative
order. -/
theorem c2_group_order_is_multi_key_stable_sort
    (group_bys : Option (List String)) (order_bys : List String)
    (projections : List SKRec) :
    order_by_fields (some order_bys) (group_by_fields group_bys projections)
      = (group_by_fields group_bys projections).map
          (fun pg => (pg.1, multiKeyStableSort order_bys pg.2))
    ∧ (∀ (x : SKRec) (g : List SKRec),
        (multiKeyStableSort order_bys g).filter
            (fun y => lexLe order_bys x y && lexLe order_bys y x)
          = g.filter (fun y => lexLe order_bys x y && lexLe order_bys y x))
    ∧ (∀ g : List SKRec, List.Perm (multiKeyStableSort order_bys g) g)
    ∧ (∀ g : List SKRec,
        (multiKeyStableSort order_bys g).Pairwise
          (fun x y => lexLe order_bys x y = true)) := by
  refine ⟨?_, ?_, ?_, ?_⟩
  · unfold order_by_fields
    apply List.map_congr_left
    intro pg _
    rw [order_fold_eq order_bys pg.2]
    rfl
  · intro x g
    exact sSort_stable (lexLe order_bys) (lexLe_trans order_bys) x g
  · intro g
    exact perm_sSort (lexLe order_bys) g
  · intro g
    exact sSort_pairwise (lexLe order_bys) (lexLe_total order_bys)
      (lexLe_trans order_bys) g
